import Mathlib

/-!
# Verification of `cmb_likelihood_utils.py` (repository AST2210)

A shallow embedding of the numerical core of the CMB likelihood pipeline:
the noise, foreground and signal covariance builders, the model power
spectrum recursion, the Legendre tensor builder, and the likelihood
evaluator, together with proofs and refutations of the specified
properties.

Real numbers stand for Python floats (exact-arithmetic semantics).
Python scalar division, which raises `ZeroDivisionError` on a zero
divisor, is modelled by `pydiv` returning `Option ℝ`; functions whose
body can raise therefore return `Option` values, with `none` for a
raised exception.
-/

open Matrix

noncomputable section

/-- `numpy.outer(u, v)`: the outer product matrix with entries `u i * v j`. -/
def np_outer {N : ℕ} (u v : Fin N → ℝ) : Matrix (Fin N) (Fin N) ℝ :=
  Matrix.of fun i j => u i * v j

/-- `numpy.ones((N, N))`: the all-ones matrix. -/
def np_ones (N : ℕ) : Matrix (Fin N) (Fin N) ℝ :=
  Matrix.of fun _ _ => 1

/-- `get_noise_cov(rms)` from `cmb_likelihood_utils.py`:
`N_cov = eye(len(rms), len(rms)) * rms ** 2`, the identity matrix
multiplied (with numpy broadcasting along rows) by the squared
per-pixel standard deviations. -/
def get_noise_cov {N : ℕ} (rms : Fin N → ℝ) : Matrix (Fin N) (Fin N) ℝ :=
  Matrix.of fun i j => (if i = j then (1 : ℝ) else 0) * rms j ^ 2

/-- `get_foreground_cov(x, y, z)` from `cmb_likelihood_utils.py`:
`large_value * (monopole + dipole)` with `large_value = 1.e3`,
`monopole = ones((len(x), len(x)))` and
`dipole = outer(x, x) + outer(y, y) + outer(z, z)`. -/
def get_foreground_cov {N : ℕ} (x y z : Fin N → ℝ) : Matrix (Fin N) (Fin N) ℝ :=
  (1000 : ℝ) • (np_ones N + (np_outer x x + np_outer y y + np_outer z z))

/-- Python scalar division: `a / b` raises `ZeroDivisionError` when `b = 0`,
modelled as `none`. -/
def pydiv (a b : ℝ) : Option ℝ :=
  if b = 0 then none else some (a / b)

/-- One iteration of the loop in `get_C_ell_model`:
`C_ell[l + 1] = (2 * l + n - 1) / (2 * l + 5 - n) * C_ell[l]`. -/
def C_ell_step (n : ℝ) (C : List ℝ) (l : ℕ) : Option (List ℝ) :=
  (pydiv (2 * l + n - 1) (2 * l + 5 - n)).map fun r => C.set (l + 1) (r * C.getD l 0)

/-- `get_C_ell_model(Q, n, lmax)` from `cmb_likelihood_utils.py`:
`C_ell = zeros(lmax + 1)`; `C_ell[2] = 4 * pi / 5 * Q ** 2`; then
`for l in range(2, lmax): C_ell[l + 1] = (2*l+n-1) / (2*l+5-n) * C_ell[l]`.
The assignment `C_ell[2]` raises `IndexError` when `lmax < 2`, hence the
guard; the loop body raises `ZeroDivisionError` when a denominator is
zero, hence the `Option`-valued fold. -/
def get_C_ell_model (Q n : ℝ) (lmax : ℕ) : Option (List ℝ) :=
  if lmax < 2 then none
  else
    (List.range' 2 (lmax - 2)).foldlM (C_ell_step n)
      ((List.replicate (lmax + 1) (0 : ℝ)).set 2 (4 * Real.pi / 5 * Q ^ 2))

/-- The Legendre polynomial of degree `l`, as returned by
`scipy.special.legendre(l)` in `get_legendre_coeff`; embedded through the
standard three-term recurrence
`(l+2)·P_{l+2}(x) = (2l+3)·x·P_{l+1}(x) − (l+1)·P_l(x)`. -/
def legendreP : ℕ → ℝ → ℝ
  | 0, _ => 1
  | 1, x => x
  | l + 2, x =>
      ((2 * l + 3) * x * legendreP (l + 1) x - (l + 1) * legendreP l x) / (l + 2)

/-- The pairwise cosine matrix `costheta = dot(pos_vec, pos_vec.T)` built in
`get_legendre_mat`, where `pos_vec = vstack([x, y, z]).T`. -/
def costheta {N : ℕ} (x y z : Fin N → ℝ) : Matrix (Fin N) (Fin N) ℝ :=
  Matrix.of fun i j => x i * x j + y i * y j + z i * z j

/-- `get_legendre_mat(lmax, x, y, z)` from `cmb_likelihood_utils.py`: the
`(ndata, ndata, lmax + 1)` tensor with `p_ell_ij[:, :, l] = leg[l](costheta)`. -/
def get_legendre_mat (lmax : ℕ) {N : ℕ} (x y z : Fin N → ℝ) :
    Fin N → Fin N → Fin (lmax + 1) → ℝ :=
  fun i j l => legendreP l (costheta x y z i j)

/-- `numpy.linspace(start, stop, num)` at index `k`: `num` evenly spaced
points from `start` to `stop` inclusive. -/
def linspace (start stop : ℝ) (num : ℕ) : ℕ → ℝ :=
  fun k => if num = 1 then start else start + (stop - start) * k / ((num : ℝ) - 1)

/-- `get_signal_cov(C_ell, beam, pixwin, p_ell_ij)` from
`cmb_likelihood_utils.py`, with `lmax = len(C_ell) - 1`:
`S_cov = Sum((2 * linspace(0, lmax + 1, lmax + 1) - 1) * beam ** 2
* pixwin ** 2 * C_ell * p_ell_ij, 2) / (4. * pi)`. -/
def get_signal_cov {lmax N : ℕ} (C_ell beam pixwin : Fin (lmax + 1) → ℝ)
    (p_ell_ij : Fin N → Fin N → Fin (lmax + 1) → ℝ) : Matrix (Fin N) (Fin N) ℝ :=
  Matrix.of fun i j =>
    (∑ l : Fin (lmax + 1),
        (2 * linspace 0 (lmax + 1) (lmax + 1) (l : ℕ) - 1) * beam l ^ 2
          * pixwin l ^ 2 * C_ell l * p_ell_ij i j l) / (4 * Real.pi)

/-- `scipy.linalg.cholesky(a)` with the default `lower=False`, as called in
`get_lnL`: returns the upper-triangular factor `U` with `a = Uᵀ·U`,
reading only the upper triangle of `a`; raises
`LinAlgError("matrix not positive definite")`, modelled as `none`, when a
pivot is not positive.  Embedded by the standard outer-product algorithm:
pivot `a₀₀`, scaled first row `w`, and recursion on the Schur
complement. -/
def cholesky : (N : ℕ) → Matrix (Fin N) (Fin N) ℝ → Option (Matrix (Fin N) (Fin N) ℝ)
  | 0, _ => some (Matrix.of fun i _ => i.elim0)
  | N + 1, A =>
    if 0 < A 0 0 then
      (cholesky N (Matrix.of fun i j =>
          A i.succ j.succ -
            (A 0 i.succ / Real.sqrt (A 0 0)) * (A 0 j.succ / Real.sqrt (A 0 0)))).map
        fun U₁ =>
          Matrix.of fun i j =>
            Fin.cases
              (Fin.cases (Real.sqrt (A 0 0)) (fun j' => A 0 j'.succ / Real.sqrt (A 0 0)) j)
              (fun i' => Fin.cases 0 (fun j' => U₁ i' j') j) i
    else none

/-- `scipy.linalg.solve_triangular(a, b)` with the default `lower=False`, as
called in `get_lnL`: back substitution for the upper-triangular system
`a·x = b`. -/
def solve_triangular : (N : ℕ) → Matrix (Fin N) (Fin N) ℝ → (Fin N → ℝ) → Fin N → ℝ
  | 0, _, _ => fun i => i.elim0
  | N + 1, U, b =>
    let x' := solve_triangular N (Matrix.of fun i j => U i.succ j.succ) fun i => b i.succ
    Fin.cons ((b 0 - ∑ j, U 0 j.succ * x' j) / U 0 0) x'

/-- `get_lnL(data, cov)` from `cmb_likelihood_utils.py`:
`L = cholesky(cov)` (scipy default, hence the upper factor);
`lndet = Sum(ln(diagonal(L)))`;
`x = solve_triangular(L, data)` (scipy default, back substitution);
`result = transpose(x).dot(x) + lndet`. -/
def get_lnL {N : ℕ} (data : Fin N → ℝ) (cov : Matrix (Fin N) (Fin N) ℝ) : Option ℝ :=
  (cholesky N cov).map fun L =>
    (∑ i, solve_triangular N L data i * solve_triangular N L data i)
      + ∑ i, Real.log (L i i)

end

/-- The Legendre polynomials all take the value `1` at `1`. -/
theorem legendreP_one_eq (l : ℕ) : legendreP l 1 = 1 := by
  have key : ∀ m : ℕ, legendreP m 1 = 1 ∧ legendreP (m + 1) 1 = 1 := by
    intro m
    induction m with
    | zero => exact ⟨rfl, rfl⟩
    | succ k ih =>
      refine ⟨ih.2, ?_⟩
      show legendreP (k + 2) 1 = 1
      have hk : ((k : ℝ) + 2) ≠ 0 := by positivity
      simp only [legendreP, ih.1, ih.2]
      rw [div_eq_one_iff_eq hk]
      ring
  exact (key l).1

/-- `np_outer` applied to a vector: `(u wᵀ)·v = (w·v) u`. -/
theorem np_outer_mulVec {N : ℕ} (u w v : Fin N → ℝ) :
    (np_outer u w).mulVec v = (∑ j, w j * v j) • u := by
  funext i
  simp only [np_outer, Matrix.mulVec, Matrix.dotProduct, Matrix.of_apply, Pi.smul_apply,
    smul_eq_mul]
  rw [Finset.sum_mul]
  exact Finset.sum_congr rfl fun j _ => by ring

/-- The all-ones matrix is the outer square of the all-ones vector. -/
theorem np_ones_eq_outer (N : ℕ) :
    np_ones N = np_outer (fun _ => (1 : ℝ)) (fun _ => (1 : ℝ)) := by
  ext i j
  simp [np_ones, np_outer]

/-- C7: `get_noise_cov(rms)` returns the diagonal matrix with `(i, i)` entry
`rms[i]²`, exactly `0` off the diagonal, hence symmetric; in particular
`get_noise_cov([1, 2, 3]) = diag([1, 4, 9])`. -/
theorem get_noise_cov_diag_spec :
    (∀ (N : ℕ) (rms : Fin N → ℝ),
        (∀ i, get_noise_cov rms i i = rms i ^ 2) ∧
        (∀ i j, i ≠ j → get_noise_cov rms i j = 0) ∧
        (get_noise_cov rms).IsSymm) ∧
      get_noise_cov ![(1 : ℝ), 2, 3] = Matrix.diagonal ![1, 4, 9] := by
  constructor
  · intro N rms
    refine ⟨fun i => by simp [get_noise_cov], fun i j h => by simp [get_noise_cov, h], ?_⟩
    show (get_noise_cov rms)ᵀ = get_noise_cov rms
    ext i j
    by_cases h : i = j
    · subst h; rfl
    · simp [get_noise_cov, h, Ne.symm h]
  · ext i j
    fin_cases i <;> fin_cases j <;>
      simp [get_noise_cov, Matrix.diagonal] <;> norm_num

/-- Witness for C7 at a concrete input. -/
theorem get_noise_cov_diag_spec_witness :
    (0 : Fin 2) ≠ 1 ∧ get_noise_cov ![(5 : ℝ), 7] 0 1 = 0 :=
  ⟨by decide, (get_noise_cov_diag_spec.1 2 ![5, 7]).2.1 0 1 (by decide)⟩

/-- C8: for any coordinate sequences, `get_foreground_cov(x, y, z)` is
symmetric and has rank at most 4: it is 1000 times the sum of the
monopole outer-product template and one outer-product dipole template per
coordinate axis, so its column space lies in the span of those four
template vectors. -/
theorem get_foreground_cov_symm_rank_le_four {N : ℕ} (x y z : Fin N → ℝ) :
    (get_foreground_cov x y z).IsSymm ∧ (get_foreground_cov x y z).rank ≤ 4 := by
  constructor
  · show (get_foreground_cov x y z)ᵀ = get_foreground_cov x y z
    ext i j
    simp only [get_foreground_cov, np_ones, np_outer, Matrix.transpose_apply,
      Matrix.smul_apply, Matrix.add_apply, Matrix.of_apply, smul_eq_mul]
    ring
  · have hle : LinearMap.range (get_foreground_cov x y z).mulVecLin ≤
        Submodule.span ℝ (Set.range ![(fun _ => (1 : ℝ)), x, y, z]) := by
      rintro u ⟨v, rfl⟩
      have hexp : (get_foreground_cov x y z).mulVecLin v =
          (1000 : ℝ) • ((∑ j, v j) • (fun _ => (1 : ℝ)) +
            ((∑ j, x j * v j) • x + ((∑ j, y j * v j) • y + (∑ j, z j * v j) • z))) := by
        rw [Matrix.mulVecLin_apply, get_foreground_cov, Matrix.smul_mulVec_assoc,
          Matrix.add_mulVec, Matrix.add_mulVec, Matrix.add_mulVec,
          np_ones_eq_outer, np_outer_mulVec, np_outer_mulVec, np_outer_mulVec,
          np_outer_mulVec]
        simp only [one_mul, smul_add]
        module
      rw [hexp]
      have hmem : ∀ k : Fin 4, ![(fun _ => (1 : ℝ)), x, y, z] k ∈
          Submodule.span ℝ (Set.range ![(fun _ => (1 : ℝ)), x, y, z]) :=
        fun k => Submodule.subset_span ⟨k, rfl⟩
      refine Submodule.smul_mem _ _ (Submodule.add_mem _
        (Submodule.smul_mem _ _ (hmem 0)) (Submodule.add_mem _
          (Submodule.smul_mem _ _ (hmem 1)) (Submodule.add_mem _
            (Submodule.smul_mem _ _ (hmem 2)) (Submodule.smul_mem _ _ (hmem 3)))))
    have h1 : (get_foreground_cov x y z).rank ≤
        Module.finrank ℝ (Submodule.span ℝ (Set.range ![(fun _ => (1 : ℝ)), x, y, z])) :=
      Submodule.finrank_mono hle
    have h2 := finrank_range_le_card (R := ℝ) ![(fun _ => (1 : ℝ)), x, y, z]
    rw [Set.finrank] at h2
    simpa using h1.trans h2

/-- C9: for unit-vector pixel coordinates, the Legendre tensor returned by
`get_legendre_mat` has: slice 0 all ones, slice 1 equal to the pairwise
cosine matrix, every slice symmetric, and diagonal 1 in every slice. -/
theorem get_legendre_mat_invariants {N : ℕ} (lmax : ℕ) (x y z : Fin N → ℝ)
    (hl : 1 ≤ lmax) (hunit : ∀ i, x i ^ 2 + y i ^ 2 + z i ^ 2 = 1) :
    (∀ i j, get_legendre_mat lmax x y z i j ⟨0, Nat.succ_pos lmax⟩ = 1) ∧
    (∀ i j, get_legendre_mat lmax x y z i j ⟨1, by omega⟩ = costheta x y z i j) ∧
    (∀ (l : Fin (lmax + 1)) i j,
      get_legendre_mat lmax x y z i j l = get_legendre_mat lmax x y z j i l) ∧
    (∀ (l : Fin (lmax + 1)) i, get_legendre_mat lmax x y z i i l = 1) := by
  have hsymm : ∀ i j, costheta x y z i j = costheta x y z j i := by
    intro i j; simp only [costheta, Matrix.of_apply]; ring
  have hdiag : ∀ i, costheta x y z i i = 1 := by
    intro i
    have := hunit i
    simp only [costheta, Matrix.of_apply]
    nlinarith [this]
  refine ⟨fun i j => rfl, fun i j => rfl, fun l i j => ?_, fun l i => ?_⟩
  · unfold get_legendre_mat
    rw [hsymm]
  · unfold get_legendre_mat
    rw [hdiag, legendreP_one_eq]

/-- Witness for C9 at a concrete input: a single pixel at `(1, 0, 0)`,
`lmax = 1`. -/
theorem get_legendre_mat_invariants_witness :
    (1 ≤ 1) ∧ (∀ i : Fin 1, (![(1 : ℝ)] i) ^ 2 + (![(0 : ℝ)] i) ^ 2 + (![(0 : ℝ)] i) ^ 2 = 1) ∧
    ((∀ i j, get_legendre_mat 1 ![(1 : ℝ)] ![0] ![0] i j ⟨0, Nat.succ_pos 1⟩ = 1) ∧
     (∀ i j, get_legendre_mat 1 ![(1 : ℝ)] ![0] ![0] i j ⟨1, by omega⟩ =
        costheta ![(1 : ℝ)] ![0] ![0] i j) ∧
     (∀ (l : Fin 2) i j, get_legendre_mat 1 ![(1 : ℝ)] ![0] ![0] i j l =
        get_legendre_mat 1 ![(1 : ℝ)] ![0] ![0] j i l) ∧
     (∀ (l : Fin 2) i, get_legendre_mat 1 ![(1 : ℝ)] ![0] ![0] i i l = 1)) :=
  ⟨le_refl 1, fun i => by fin_cases i <;> norm_num,
    get_legendre_mat_invariants 1 ![(1 : ℝ)] ![0] ![0] (le_refl 1)
      (fun i => by fin_cases i <;> norm_num)⟩

/-- `List.set` then `getD` at the written index. -/
theorem getD_set_self (L : List ℝ) (m : ℕ) (a : ℝ) (h : m < L.length) :
    (L.set m a).getD m 0 = a := by
  simp [List.getD_eq_getElem?_getD, List.getElem?_set_self, h]

/-- `List.set` then `getD` at another index. -/
theorem getD_set_ne (L : List ℝ) (m i : ℕ) (a : ℝ) (h : m ≠ i) :
    (L.set m a).getD i 0 = L.getD i 0 := by
  simp [List.getD_eq_getElem?_getD, List.getElem?_set_ne h]

/-- `getD` on a zero-filled list is `0` everywhere. -/
theorem getD_replicate_zero (n i : ℕ) : (List.replicate n (0 : ℝ)).getD i 0 = 0 := by
  rcases lt_or_le i n with hi | hi
  · simp [List.getD_eq_getElem?_getD, List.getElem?_replicate, hi]
  · rw [List.getD_eq_default]
    simpa using hi

/-- `getD` with default `0` commutes with scaling every entry. -/
theorem getD_map_mul (Q : ℝ) (L : List ℝ) (i : ℕ) :
    (L.map fun c => Q ^ 2 * c).getD i 0 = Q ^ 2 * L.getD i 0 := by
  rcases lt_or_le i L.length with hi | hi
  · simp [List.getD_eq_getElem?_getD, List.getElem?_eq_getElem hi]
  · rw [List.getD_eq_default _ _ (by simpa using hi), List.getD_eq_default _ _ hi]
    ring

/-- The loop body of `get_C_ell_model` when the denominator is nonzero. -/
theorem C_ell_step_eq_some (n : ℝ) (C : List ℝ) (l : ℕ) (h : (2 * l + 5 - n : ℝ) ≠ 0) :
    C_ell_step n C l =
      some (C.set (l + 1) ((2 * l + n - 1) / (2 * l + 5 - n) * C.getD l 0)) := by
  simp [C_ell_step, pydiv, h]

/-- The loop body of `get_C_ell_model` raises `ZeroDivisionError` when the
denominator vanishes. -/
theorem C_ell_step_eq_none (n : ℝ) (C : List ℝ) (l : ℕ) (h : (2 * l + 5 - n : ℝ) = 0) :
    C_ell_step n C l = none := by
  simp [C_ell_step, pydiv, h]

/-- If any denominator in the iteration range vanishes, the recursion loop
of `get_C_ell_model` aborts with no result. -/
theorem foldlM_C_ell_step_none (n : ℝ) :
    ∀ (k s : ℕ) (C : List ℝ),
      (∃ l : ℕ, s ≤ l ∧ l < s + k ∧ (2 * l + 5 - n : ℝ) = 0) →
      (List.range' s k).foldlM (C_ell_step n) C = none := by
  intro k
  induction k with
  | zero =>
    rintro s C ⟨l, h1, h2, -⟩
    omega
  | succ k ih =>
    rintro s C ⟨l, h1, h2, h3⟩
    rw [List.range'_succ, List.foldlM_cons]
    by_cases hs : (2 * s + 5 - n : ℝ) = 0
    · rw [C_ell_step_eq_none n C s hs]
      rfl
    · have hsl : s ≠ l := fun e => hs (by rw [e]; exact h3)
      rw [C_ell_step_eq_some n C s hs]
      show (List.range' (s + 1) k).foldlM (C_ell_step n) _ = none
      exact ih (s + 1) _ ⟨l, by omega, by omega, h3⟩

/-- Invariant of the recursion loop of `get_C_ell_model`: starting from a
list that is zero away from index 2, after `k` successful iterations the
length is unchanged, indices `≤ 2` are unchanged, indices beyond `2 + k`
are still zero, and each computed entry satisfies the recursion. -/
theorem foldlM_C_ell_step_invariant (n : ℝ) (lmax : ℕ) (C0 : List ℝ)
    (hlen : C0.length = lmax + 1) (hzero : ∀ i, i ≠ 2 → C0.getD i 0 = 0) :
    ∀ k, 2 + k ≤ lmax →
      (∀ l : ℕ, 2 ≤ l → l < 2 + k → (2 * l + 5 - n : ℝ) ≠ 0) →
      ∃ C : List ℝ, (List.range' 2 k).foldlM (C_ell_step n) C0 = some C ∧
        C.length = lmax + 1 ∧
        (∀ i, i ≤ 2 → C.getD i 0 = C0.getD i 0) ∧
        (∀ i, 2 + k < i → C.getD i 0 = 0) ∧
        (∀ l, 2 ≤ l → l < 2 + k →
          C.getD (l + 1) 0 = (2 * l + n - 1) / (2 * l + 5 - n) * C.getD l 0) := by
  intro k
  induction k with
  | zero =>
    intro _ _
    exact ⟨C0, rfl, hlen, fun i _ => rfl, fun i hi => hzero i (by omega),
      fun l hl hl' => absurd hl' (by omega)⟩
  | succ k ih =>
    intro hk hden
    obtain ⟨C, hfold, hClen, hpre, hpost, hrec⟩ :=
      ih (by omega) fun l hl hl' => hden l hl (by omega)
    have hd : (2 * ((2 + k : ℕ) : ℝ) + 5 - n) ≠ 0 := hden (2 + k) (by omega) (by omega)
    have hconcat : List.range' 2 (k + 1) = List.range' 2 k ++ [2 + k] := by
      have h : List.range' 2 (k + 1) = List.range' 2 k ++ [2 + 1 * k] :=
        List.range'_concat 2 k
      simpa using h
    refine ⟨C.set (2 + k + 1)
        ((2 * ((2 + k : ℕ) : ℝ) + n - 1) / (2 * ((2 + k : ℕ) : ℝ) + 5 - n) * C.getD (2 + k) 0),
      ?_, ?_, ?_, ?_, ?_⟩
    · rw [hconcat, List.foldlM_append, hfold]
      show (List.foldlM (C_ell_step n) C [2 + k]) = _
      rw [List.foldlM_cons, C_ell_step_eq_some n C (2 + k) hd]
      rfl
    · rw [List.length_set]
      exact hClen
    · intro i hi
      rw [getD_set_ne _ _ _ _ (by omega)]
      exact hpre i hi
    · intro i hi
      rw [getD_set_ne _ _ _ _ (by omega)]
      exact hpost i (by omega)
    · intro l hl hl'
      rcases Nat.lt_or_ge l (2 + k) with hcase | hcase
      · rw [getD_set_ne _ _ _ _ (by omega), getD_set_ne _ _ _ _ (by omega)]
        exact hrec l hl hcase
      · have hleq : l = 2 + k := by omega
        subst hleq
        rw [getD_set_self _ _ _ (by omega), getD_set_ne _ _ _ _ (by omega)]

/-- C4: `get_C_ell_model(Q, n, lmax)` returns a length-`lmax+1` sequence with
`C[0] = C[1] = 0`, `C[2] = (4π/5)·Q²`, and
`C[l+1] = C[l]·(2l+n−1)/(2l+5−n)` for `l` from 2 to `lmax−1`; in
particular for `lmax = 5`, `Q = 1`, `n = 1`: `C[2] = 4π/5` and
`C[3]/C[2] = 1/2`. -/
theorem get_C_ell_model_spec (Q n : ℝ) (lmax : ℕ) (hQ : 0 < Q) (hlmax : 2 ≤ lmax)
    (hden : ∀ l : ℕ, 2 ≤ l → l + 1 ≤ lmax → (2 * (l : ℝ) + 5 - n) ≠ 0) :
    ∃ C : List ℝ, get_C_ell_model Q n lmax = some C ∧
      C.length = lmax + 1 ∧ C.getD 0 0 = 0 ∧ C.getD 1 0 = 0 ∧
      C.getD 2 0 = 4 * Real.pi / 5 * Q ^ 2 ∧
      (∀ l : ℕ, 2 ≤ l → l + 1 ≤ lmax →
        C.getD (l + 1) 0 = (2 * (l : ℝ) + n - 1) / (2 * (l : ℝ) + 5 - n) * C.getD l 0) ∧
      (lmax = 5 ∧ Q = 1 ∧ n = 1 →
        C.getD 2 0 = 4 * Real.pi / 5 ∧ C.getD 3 0 / C.getD 2 0 = 1 / 2) := by
  have hlen : ((List.replicate (lmax + 1) (0 : ℝ)).set 2
      (4 * Real.pi / 5 * Q ^ 2)).length = lmax + 1 := by
    simp
  have hzero : ∀ i, i ≠ 2 →
      ((List.replicate (lmax + 1) (0 : ℝ)).set 2 (4 * Real.pi / 5 * Q ^ 2)).getD i 0 = 0 :=
    fun i hi => by rw [getD_set_ne _ _ _ _ (Ne.symm hi), getD_replicate_zero]
  obtain ⟨C, hfold, hClen, hpre, hpost, hrec⟩ :=
    foldlM_C_ell_step_invariant n lmax _ hlen hzero (lmax - 2) (by omega)
      (fun l hl hl' => hden l hl (by omega))
  have hsome : get_C_ell_model Q n lmax = some C := by
    unfold get_C_ell_model
    rw [if_neg (by omega)]
    exact hfold
  have hC2 : C.getD 2 0 = 4 * Real.pi / 5 * Q ^ 2 := by
    rw [hpre 2 (le_refl 2), getD_set_self _ _ _ (by simp; omega)]
  have hrec' : ∀ l : ℕ, 2 ≤ l → l + 1 ≤ lmax →
      C.getD (l + 1) 0 = (2 * (l : ℝ) + n - 1) / (2 * (l : ℝ) + 5 - n) * C.getD l 0 :=
    fun l hl hl' => hrec l hl (by omega)
  refine ⟨C, hsome, hClen,
    by rw [hpre 0 (by omega)]; exact hzero 0 (by omega),
    by rw [hpre 1 (by omega)]; exact hzero 1 (by omega),
    hC2, hrec', ?_⟩
  rintro ⟨h5, hQ1, hn1⟩
  subst h5 hQ1 hn1
  have hC2' : C.getD 2 0 = 4 * Real.pi / 5 := by rw [hC2]; ring
  have hC2ne : C.getD 2 0 ≠ 0 := by
    rw [hC2']
    positivity
  have hC3 : C.getD 3 0 = 1 / 2 * C.getD 2 0 := by
    have := hrec' 2 (le_refl 2) (by omega)
    rw [this]
    norm_num
  refine ⟨hC2', ?_⟩
  rw [hC3, mul_div_assoc, div_self hC2ne, mul_one]

/-- Witness for C4 at `Q = 1`, `n = 1`, `lmax = 5`. -/
theorem get_C_ell_model_spec_witness :
    (0 : ℝ) < 1 ∧ 2 ≤ 5 ∧
      (∀ l : ℕ, 2 ≤ l → l + 1 ≤ 5 → (2 * (l : ℝ) + 5 - 1) ≠ 0) ∧
      ∃ C : List ℝ, get_C_ell_model 1 1 5 = some C ∧
        C.length = 5 + 1 ∧ C.getD 0 0 = 0 ∧ C.getD 1 0 = 0 ∧
        C.getD 2 0 = 4 * Real.pi / 5 * 1 ^ 2 ∧
        (∀ l : ℕ, 2 ≤ l → l + 1 ≤ 5 →
          C.getD (l + 1) 0 = (2 * (l : ℝ) + 1 - 1) / (2 * (l : ℝ) + 5 - 1) * C.getD l 0) ∧
        (5 = 5 ∧ (1 : ℝ) = 1 ∧ (1 : ℝ) = 1 →
          C.getD 2 0 = 4 * Real.pi / 5 ∧ C.getD 3 0 / C.getD 2 0 = 1 / 2) :=
  ⟨one_pos, by omega,
    fun l hl _ => by
      have h := Nat.cast_nonneg (α := ℝ) l
      intro heq
      nlinarith,
    get_C_ell_model_spec 1 1 5 one_pos (by omega)
      (fun l hl _ => by
        have h := Nat.cast_nonneg (α := ℝ) l
        intro heq
        nlinarith)⟩

/-- C5: when a denominator `2l+5−n` vanishes for some `l` in `2..lmax−1`,
`get_C_ell_model(Q, n, lmax)` aborts (the scalar division raises
`ZeroDivisionError`, Python's domain error for division) and returns no
result, rather than a result containing infinities or NaN. -/
theorem get_C_ell_model_zero_denom (Q n : ℝ) (lmax : ℕ) (hlmax : 2 ≤ lmax)
    (h : ∃ l : ℕ, 2 ≤ l ∧ l + 1 ≤ lmax ∧ (2 * (l : ℝ) + 5 - n) = 0) :
    get_C_ell_model Q n lmax = none := by
  obtain ⟨l, hl2, hll, hl0⟩ := h
  unfold get_C_ell_model
  rw [if_neg (by omega)]
  exact foldlM_C_ell_step_none n (lmax - 2) 2 _ ⟨l, hl2, by omega, hl0⟩

/-- Witness for C5 at `Q = 1`, `n = 9`, `lmax = 3` (the `l = 2` denominator
`2·2+5−9` vanishes). -/
theorem get_C_ell_model_zero_denom_witness :
    2 ≤ 3 ∧ (2 ≤ 2 ∧ 2 + 1 ≤ 3 ∧ (2 * ((2 : ℕ) : ℝ) + 5 - 9) = 0) ∧
      get_C_ell_model 1 9 3 = none :=
  ⟨by omega, ⟨le_refl 2, by omega, by norm_num⟩,
    get_C_ell_model_zero_denom 1 9 3 (by omega) ⟨2, le_refl 2, by omega, by norm_num⟩⟩

/-- The loop body of `get_C_ell_model` commutes with scaling every entry by
`Q²` (the ratio `(2l+n−1)/(2l+5−n)` does not depend on `Q`). -/
theorem C_ell_step_map_sq (Q n : ℝ) (C : List ℝ) (l : ℕ) :
    C_ell_step n (C.map fun c => Q ^ 2 * c) l =
      (C_ell_step n C l).map (List.map fun c => Q ^ 2 * c) := by
  unfold C_ell_step
  cases h : pydiv (2 * l + n - 1) (2 * l + 5 - n) with
  | none => simp [h]
  | some r =>
    simp only [h, Option.map_some']
    rw [getD_map_mul, List.map_set]
    have hval : r * (Q ^ 2 * C.getD l 0) = Q ^ 2 * (r * C.getD l 0) := by ring
    rw [hval]

/-- The whole recursion loop of `get_C_ell_model` commutes with scaling
every entry by `Q²`. -/
theorem foldlM_C_ell_step_map_sq (Q n : ℝ) :
    ∀ (L : List ℕ) (C : List ℝ),
      L.foldlM (C_ell_step n) (C.map fun c => Q ^ 2 * c) =
        (L.foldlM (C_ell_step n) C).map (List.map fun c => Q ^ 2 * c) := by
  intro L
  induction L with
  | nil => intro C; rfl
  | cons a t ih =>
    intro C
    rw [List.foldlM_cons, List.foldlM_cons, C_ell_step_map_sq]
    cases h : C_ell_step n C a with
    | none => simp [h]
    | some C' => simp [h, ih C']

/-- `get_C_ell_model` at amplitude `Q` is the `Q = 1` spectrum with every
entry scaled by `Q²` (both also fail together). -/
theorem get_C_ell_model_map_sq (Q n : ℝ) (lmax : ℕ) :
    get_C_ell_model Q n lmax =
      (get_C_ell_model 1 n lmax).map (List.map fun c => Q ^ 2 * c) := by
  unfold get_C_ell_model
  by_cases h : lmax < 2
  · simp [h]
  · rw [if_neg h, if_neg h]
    have hC0 : (List.replicate (lmax + 1) (0 : ℝ)).set 2 (4 * Real.pi / 5 * Q ^ 2) =
        ((List.replicate (lmax + 1) (0 : ℝ)).set 2
            (4 * Real.pi / 5 * (1 : ℝ) ^ 2)).map fun c => Q ^ 2 * c := by
      rw [List.map_set, List.map_replicate]
      rw [mul_zero]
      have hv : Q ^ 2 * (4 * Real.pi / 5 * (1 : ℝ) ^ 2) = 4 * Real.pi / 5 * Q ^ 2 := by
        ring
      rw [hv]
    rw [hC0, foldlM_C_ell_step_map_sq]

/-- C10: the model spectrum depends on `Q` only through `Q²`: every entry of
`get_C_ell_model(Q, n, lmax)` is `Q²` times the corresponding entry of
`get_C_ell_model(1, n, lmax)`, and in particular the spectrum at `−Q`
coincides with the spectrum at `Q`. -/
theorem get_C_ell_model_Q_squared (Q n : ℝ) (lmax : ℕ) (hlmax : 2 ≤ lmax)
    (hden : ∀ l : ℕ, 2 ≤ l → l + 1 ≤ lmax → (2 * (l : ℝ) + 5 - n) ≠ 0) :
    (∃ C C1 : List ℝ, get_C_ell_model Q n lmax = some C ∧
        get_C_ell_model 1 n lmax = some C1 ∧ C.length = C1.length ∧
        ∀ i : ℕ, C.getD i 0 = Q ^ 2 * C1.getD i 0) ∧
      get_C_ell_model Q n lmax = get_C_ell_model (-Q) n lmax := by
  constructor
  · have hlen : ((List.replicate (lmax + 1) (0 : ℝ)).set 2
        (4 * Real.pi / 5 * (1 : ℝ) ^ 2)).length = lmax + 1 := by
      simp
    have hzero : ∀ i, i ≠ 2 → ((List.replicate (lmax + 1) (0 : ℝ)).set 2
        (4 * Real.pi / 5 * (1 : ℝ) ^ 2)).getD i 0 = 0 :=
      fun i hi => by rw [getD_set_ne _ _ _ _ (Ne.symm hi), getD_replicate_zero]
    obtain ⟨C1, hfold, -, -, -, -⟩ :=
      foldlM_C_ell_step_invariant n lmax _ hlen hzero (lmax - 2) (by omega)
        (fun l hl hl' => hden l hl (by omega))
    have h1 : get_C_ell_model 1 n lmax = some C1 := by
      unfold get_C_ell_model
      rw [if_neg (by omega)]
      exact hfold
    refine ⟨C1.map fun c => Q ^ 2 * c, C1, ?_, h1, by simp, fun i => getD_map_mul Q C1 i⟩
    rw [get_C_ell_model_map_sq Q n lmax, h1]
    rfl
  · rw [get_C_ell_model_map_sq Q n lmax, get_C_ell_model_map_sq (-Q) n lmax]
    have hfun : (fun c : ℝ => (-Q) ^ 2 * c) = fun c : ℝ => Q ^ 2 * c := by
      funext c
      rw [neg_sq]
    rw [hfun]

/-- Witness for C10 at `Q = 2`, `n = 1`, `lmax = 3`. -/
theorem get_C_ell_model_Q_squared_witness :
    2 ≤ 3 ∧ (∀ l : ℕ, 2 ≤ l → l + 1 ≤ 3 → (2 * (l : ℝ) + 5 - 1) ≠ 0) ∧
      ((∃ C C1 : List ℝ, get_C_ell_model 2 1 3 = some C ∧
          get_C_ell_model 1 1 3 = some C1 ∧ C.length = C1.length ∧
          ∀ i : ℕ, C.getD i 0 = 2 ^ 2 * C1.getD i 0) ∧
        get_C_ell_model 2 1 3 = get_C_ell_model (-2) 1 3) :=
  ⟨by omega,
    fun l hl _ => by
      have h := Nat.cast_nonneg (α := ℝ) l
      intro heq
      nlinarith,
    get_C_ell_model_Q_squared 2 1 3 (by omega)
      (fun l hl _ => by
        have h := Nat.cast_nonneg (α := ℝ) l
        intro heq
        nlinarith)⟩

/-- When `cholesky` succeeds on a symmetric matrix, the returned factor `U`
is upper triangular with positive diagonal and satisfies `Uᵀ·U = A`. -/
theorem cholesky_factorization :
    ∀ (N : ℕ) (A U : Matrix (Fin N) (Fin N) ℝ), A.IsSymm → cholesky N A = some U →
      (∀ i j : Fin N, (j : ℕ) < (i : ℕ) → U i j = 0) ∧
      (∀ i : Fin N, 0 < U i i) ∧ Uᵀ * U = A := by
  intro N
  induction N with
  | zero =>
    intro A U _ h
    refine ⟨fun i => i.elim0, fun i => i.elim0, ?_⟩
    ext i j
    exact i.elim0
  | succ N ih =>
    intro A U hsym h
    have hsymE : ∀ i j, A i j = A j i := fun i j => hsym.apply j i
    unfold cholesky at h
    by_cases hα : 0 < A 0 0
    · rw [if_pos hα] at h
      obtain ⟨U₁, hU₁, hU⟩ := Option.map_eq_some'.mp h
      have hu0 : Real.sqrt (A 0 0) ≠ 0 := ne_of_gt (Real.sqrt_pos.mpr hα)
      have hBsym : (Matrix.of fun i j : Fin N =>
          A i.succ j.succ -
            (A 0 i.succ / Real.sqrt (A 0 0)) * (A 0 j.succ / Real.sqrt (A 0 0))).IsSymm := by
        show Matrix.transpose _ = _
        ext i j
        simp only [Matrix.transpose_apply, Matrix.of_apply]
        rw [hsymE j.succ i.succ]
        ring
      obtain ⟨htri₁, hpos₁, hfact₁⟩ := ih _ U₁ hBsym hU₁
      have hU00 : U 0 0 = Real.sqrt (A 0 0) := by rw [← hU]; simp
      have hU0s : ∀ j' : Fin N, U 0 j'.succ = A 0 j'.succ / Real.sqrt (A 0 0) := by
        intro j'; rw [← hU]; simp
      have hUs0 : ∀ i' : Fin N, U i'.succ 0 = 0 := by
        intro i'; rw [← hU]; simp
      have hUss : ∀ i' j' : Fin N, U i'.succ j'.succ = U₁ i' j' := by
        intro i' j'; rw [← hU]; simp
      refine ⟨?_, ?_, ?_⟩
      · intro i j hij
        induction i using Fin.cases with
        | zero => simp at hij
        | succ i' =>
          induction j using Fin.cases with
          | zero => exact hUs0 i'
          | succ j' =>
            rw [hUss]
            exact htri₁ i' j' (by simpa using hij)
      · intro i
        induction i using Fin.cases with
        | zero => rw [hU00]; exact Real.sqrt_pos.mpr hα
        | succ i' => rw [hUss]; exact hpos₁ i'
      · ext i j
        simp only [Matrix.mul_apply, Matrix.transpose_apply]
        rw [Fin.sum_univ_succ]
        induction i using Fin.cases with
        | zero =>
          induction j using Fin.cases with
          | zero =>
            simp only [hU00, hUs0, mul_zero]
            rw [Finset.sum_const_zero, add_zero]
            exact Real.mul_self_sqrt hα.le
          | succ j' =>
            simp only [hU00, hU0s, hUs0, zero_mul]
            rw [Finset.sum_const_zero, add_zero, mul_comm, div_mul_cancel₀ _ hu0]
        | succ i' =>
          induction j using Fin.cases with
          | zero =>
            simp only [hU00, hU0s, hUs0, mul_zero]
            rw [Finset.sum_const_zero, add_zero, div_mul_cancel₀ _ hu0]
            exact hsymE 0 i'.succ
          | succ j' =>
            have hsum := congrFun (congrFun hfact₁ i') j'
            simp only [Matrix.mul_apply, Matrix.transpose_apply, Matrix.of_apply] at hsum
            simp only [hU0s, hUss]
            rw [hsum]
            ring
    · rw [if_neg hα] at h
      cases h

/-- When `cholesky` succeeds on a symmetric matrix, that matrix is positive
definite. -/
theorem cholesky_some_posdef {N : ℕ} (A U : Matrix (Fin N) (Fin N) ℝ) (hsym : A.IsSymm)
    (h : cholesky N A = some U) (v : Fin N → ℝ) (hv : v ≠ 0) :
    0 < v ⬝ᵥ A.mulVec v := by
  obtain ⟨htri, hpos, hfact⟩ := cholesky_factorization N A U hsym h
  have hdet : IsUnit U.det := by
    have hblock : U.BlockTriangular id := fun i j hij => htri i j hij
    rw [Matrix.det_of_upperTriangular hblock]
    exact (Finset.prod_pos fun i _ => hpos i).ne'.isUnit
  have hUv : U.mulVec v ≠ 0 := by
    intro h0
    apply hv
    have hinj := Matrix.mulVec_injective_iff_isUnit.mpr ((Matrix.isUnit_iff_isUnit_det U).mpr hdet)
    have : U.mulVec v = U.mulVec 0 := by simpa using h0
    exact hinj this
  have hnn : 0 ≤ (U.mulVec v) ⬝ᵥ (U.mulVec v) :=
    Finset.sum_nonneg fun i _ => mul_self_nonneg _
  have hne : (U.mulVec v) ⬝ᵥ (U.mulVec v) ≠ 0 :=
    fun h0 => hUv (Matrix.dotProduct_self_eq_zero.mp h0)
  calc (0 : ℝ) < (U.mulVec v) ⬝ᵥ (U.mulVec v) := lt_of_le_of_ne hnn (Ne.symm hne)
    _ = v ⬝ᵥ A.mulVec v := by
        conv_rhs => rw [← hfact, ← Matrix.mulVec_mulVec, Matrix.dotProduct_mulVec,
          Matrix.vecMul_transpose]

/-- C6: for a symmetric covariance matrix that is not positive definite
(some nonzero vector has nonpositive quadratic form), `get_lnL` propagates
the `LinAlgError("matrix not positive definite")` raised by the Cholesky
factorization, modelled as `none`, and does not return a value. -/
theorem get_lnL_not_posdef {N : ℕ} (data : Fin N → ℝ) (cov : Matrix (Fin N) (Fin N) ℝ)
    (hsym : cov.IsSymm) (h : ∃ v : Fin N → ℝ, v ≠ 0 ∧ v ⬝ᵥ cov.mulVec v ≤ 0) :
    get_lnL data cov = none := by
  obtain ⟨v, hv, hval⟩ := h
  cases hc : cholesky N cov with
  | none =>
    unfold get_lnL
    rw [hc]
    rfl
  | some U =>
    exact absurd hval (not_le.mpr (cholesky_some_posdef cov U hsym hc v hv))

/-- Witness for C6: the symmetric matrix `[[-1]]` (negative eigenvalue). -/
theorem get_lnL_not_posdef_witness :
    (!![(-1 : ℝ)]).IsSymm ∧
      (∃ v : Fin 1 → ℝ, v ≠ 0 ∧ v ⬝ᵥ (!![(-1 : ℝ)]).mulVec v ≤ 0) ∧
      get_lnL ![(0 : ℝ)] !![(-1 : ℝ)] = none := by
  have hsym : (!![(-1 : ℝ)]).IsSymm := by
    show Matrix.transpose _ = _
    ext i j
    fin_cases i
    fin_cases j
    rfl
  have hv : (![(1 : ℝ)] : Fin 1 → ℝ) ≠ 0 := by
    intro h0
    have h1 := congrFun h0 0
    norm_num at h1
  have hd : (![(1 : ℝ)] : Fin 1 → ℝ) ⬝ᵥ (!![(-1 : ℝ)]).mulVec ![1] ≤ 0 := by
    simp [Matrix.dotProduct, Matrix.mulVec, Fin.sum_univ_one]
  exact ⟨hsym, ⟨![1], hv, hd⟩, get_lnL_not_posdef ![0] !![-1] hsym ⟨![1], hv, hd⟩⟩

/-- Evaluation of the embedded `cholesky` on the 1×1 matrix `[[9]]`. -/
theorem cholesky_nine : cholesky 1 !![(9 : ℝ)] = some !![3] := by
  have h3 : Real.sqrt 9 = 3 := by
    rw [show (9 : ℝ) = 3 ^ 2 by norm_num, Real.sqrt_sq]
    norm_num
  show cholesky (0 + 1) !![(9 : ℝ)] = some !![3]
  rw [cholesky]
  norm_num [cholesky, h3]
  ext i j
  fin_cases i
  fin_cases j
  simp

/-- Evaluation of the embedded `cholesky` on the 1×1 matrix `[[4]]`. -/
theorem cholesky_four : cholesky 1 !![(4 : ℝ)] = some !![2] := by
  have h2 : Real.sqrt 4 = 2 := by
    rw [show (4 : ℝ) = 2 ^ 2 by norm_num, Real.sqrt_sq]
    norm_num
  show cholesky (0 + 1) !![(4 : ℝ)] = some !![2]
  rw [cholesky]
  norm_num [cholesky, h2]
  ext i j
  fin_cases i
  fin_cases j
  simp

/-- C1 (counter-evaluation): on `d = [1]`, `C = [[9]]` the code returns
`1/9 + ln 3` — it uses the upper Cholesky factor with back substitution
and sums `ln` of the factor diagonal WITHOUT the factor 2 — whereas
`dᵀ·C⁻¹·d + ln(det C) = 1/9 + ln 9`. -/
theorem get_lnL_missing_factor_two :
    get_lnL ![(1 : ℝ)] !![(9 : ℝ)] = some (1 / 9 + Real.log 3) ∧
      1 / 9 + Real.log 3 ≠ 1 / 9 + Real.log 9 := by
  constructor
  · unfold get_lnL
    rw [cholesky_nine, Option.map_some']
    have hsolve : solve_triangular 1 !![(3 : ℝ)] ![1] = ![1 / 3] := by
      show solve_triangular (0 + 1) !![(3 : ℝ)] ![1] = ![1 / 3]
      rw [solve_triangular]
      funext i
      fin_cases i
      simp
    rw [hsolve]
    rw [Fin.sum_univ_one, Fin.sum_univ_one]
    norm_num
  · have hlt : Real.log 3 < Real.log 9 := Real.log_lt_log (by norm_num) (by norm_num)
    intro h
    have heq := add_left_cancel h
    linarith

/-- C3 (counter-evaluation): on the diagonal covariance `C = diag([4])` and
`d = [1]` the code returns `Σ dᵢ²/vᵢ + (1/2)·Σ ln vᵢ = 1/4 + ln 2`, not
the claimed `Σ dᵢ²/vᵢ + Σ ln vᵢ = 1/4 + ln 4`. -/
theorem get_lnL_diagonal_halved :
    get_lnL ![(1 : ℝ)] !![(4 : ℝ)] = some (1 / 4 + Real.log 2) ∧
      1 / 4 + Real.log 2 ≠ 1 / 4 + Real.log 4 := by
  constructor
  · unfold get_lnL
    rw [cholesky_four, Option.map_some']
    have hsolve : solve_triangular 1 !![(2 : ℝ)] ![1] = ![1 / 2] := by
      show solve_triangular (0 + 1) !![(2 : ℝ)] ![1] = ![1 / 2]
      rw [solve_triangular]
      funext i
      fin_cases i
      simp
    rw [hsolve]
    rw [Fin.sum_univ_one, Fin.sum_univ_one]
    norm_num
  · have hlt : Real.log 2 < Real.log 4 := Real.log_lt_log (by norm_num) (by norm_num)
    intro h
    have heq := add_left_cancel h
    linarith

/-- C2 (counter-evaluation): with `lmax = 2`, a single pixel at `(1,0,0)`,
unit beam and pixel window, and spectrum `C = [1, 0, 0]`, the code weights
multipole `ℓ = 0` by `2·linspace(0, lmax+1, lmax+1)[0] − 1 = −1` and
returns `−1/(4π)`, whereas the specified weight `2ℓ+1 = 1` gives
`1/(4π)`. -/
theorem get_signal_cov_linspace_bug :
    get_signal_cov ![(1 : ℝ), 0, 0] ![1, 1, 1] ![1, 1, 1]
        (get_legendre_mat 2 ![1] ![0] ![0]) 0 0 = -1 / (4 * Real.pi) ∧
      -1 / (4 * Real.pi) ≠ 1 / (4 * Real.pi) := by
  constructor
  · unfold get_signal_cov
    rw [Matrix.of_apply, Fin.sum_univ_three]
    norm_num [get_legendre_mat, linspace, costheta, legendreP]
  · have hπ : (0 : ℝ) < Real.pi := Real.pi_pos
    intro h
    have h4 : (4 * Real.pi) ≠ 0 := by positivity
    rw [div_eq_div_iff h4 h4] at h
    nlinarith
